import Mathlib

/-!
Verification of the knowledge-dependency graph and diagnosis/recommendation
engine of the mistake-paper-generator repository.

The Python data model and operations from `knowledge_system/knowledge_graph.py`,
`recommendation/diagnosis.py` and `recommendation/daily_recommender.py` are
shallowly embedded below.  A `KnowledgeGraph` holds the id-indexed collection of
knowledge points; dictionary lookup is modelled by `List.find?` over the points,
Python sets of ids by lists with membership, and the recursive DFS by a
fuel-indexed function (`dfsAux`) together with a proof that the standard fuel
`points.length + 1` always suffices.
-/

inductive Subject where
  | math
  | chinese
  | english
deriving DecidableEq, Repr

structure KnowledgePoint where
  id : String
  subject : Subject
  grade : Nat
  category : String
  name : String
  difficulty : Nat
  prerequisites : List String
  importance : Nat
deriving DecidableEq, Repr

structure KnowledgeGraph where
  points : List KnowledgePoint
deriving DecidableEq, Repr

def KnowledgeGraph.get_point (g : KnowledgeGraph) (point_id : String) : Option KnowledgePoint :=
  g.points.find? (fun p => decide (p.id = point_id))

def KnowledgeGraph.get_prerequisites (g : KnowledgeGraph) (point_id : String) :
    List KnowledgePoint :=
  match g.get_point point_id with
  | none => []
  | some point => point.prerequisites.filterMap g.get_point

/-- The mutable state of the Python closure `dfs` inside
`get_all_prerequisites_recursive`: the `visited` set of ids and the `result`
list of points (appended at the end). -/
structure DfsState where
  visited : List String
  result : List KnowledgePoint
deriving DecidableEq, Repr

/-- Fuel-indexed embedding of the recursive closure `dfs` of
`KnowledgeGraph.get_all_prerequisites_recursive`.  `rootId` is the Python
`point_id` captured by the closure; `none` means the fuel ran out (which the
totality theorem below shows never happens at the standard fuel). -/
def dfsAux (g : KnowledgeGraph) (rootId : String) : Nat → String → DfsState → Option DfsState
  | 0, _, _ => none
  | fuel + 1, pid, s =>
    if pid ∈ s.visited then
      some s
    else
      let s1 : DfsState := ⟨pid :: s.visited, s.result⟩
      match g.get_point pid with
      | none => some s1
      | some point =>
        match point.prerequisites.foldlM (fun st q => dfsAux g rootId fuel q st) s1 with
        | none => none
        | some s2 =>
          if pid = rootId then some s2
          else some ⟨s2.visited, s2.result ++ [point]⟩

def KnowledgeGraph.get_all_prerequisites_opt (g : KnowledgeGraph) (point_id : String) :
    Option (List KnowledgePoint) :=
  (dfsAux g point_id (g.points.length + 1) point_id ⟨[], []⟩).map DfsState.result

def KnowledgeGraph.get_all_prerequisites_recursive (g : KnowledgeGraph) (point_id : String) :
    List KnowledgePoint :=
  (g.get_all_prerequisites_opt point_id).getD []

/-- The dictionary returned by `check_readiness`: the nonexistent-point branch
returns `{"ready": False, "reason": ...}` (constructor `missing_point`), the
other branches return `{"ready": ..., "missing": ..., "message": ...}`. -/
inductive CheckResult where
  | missing_point (reason : String)
  | checked (ready : Bool) (missing : List KnowledgePoint) (message : String)
deriving DecidableEq, Repr

/-- The `"ready"` field of the result dictionary. -/
def CheckResult.ready : CheckResult → Bool
  | .missing_point _ => false
  | .checked r _ _ => r

/-- The `"missing"` field of the result dictionary (absent in the
nonexistent-point branch). -/
def CheckResult.missingList : CheckResult → Option (List KnowledgePoint)
  | .missing_point _ => none
  | .checked _ m _ => some m

def KnowledgeGraph.check_readiness (g : KnowledgeGraph) (point_id : String)
    (mastered_points : List String) : CheckResult :=
  match g.get_point point_id with
  | none => .missing_point "知识点不存在"
  | some point =>
    let missing := (g.get_prerequisites point_id).filter (fun q => decide (q.id ∉ mastered_points))
    if missing.isEmpty then
      .checked true [] ("可以学习「" ++ point.name ++ "」")
    else
      .checked false missing ("需要先掌握 " ++ toString missing.length ++ " 个前置知识点")

/-- The accumulation loop of `get_learning_path`: `found_start` starts `false`,
is switched on at the first point whose id is `from_point_id`, and from then on
every point is appended. -/
def learningPathLoop (from_point_id : String) : List KnowledgePoint → Bool → List KnowledgePoint
  | [], _ => []
  | p :: rest, found_start =>
    let found := found_start || decide (p.id = from_point_id)
    if found then p :: learningPathLoop from_point_id rest found
    else learningPathLoop from_point_id rest found

def KnowledgeGraph.get_learning_path (g : KnowledgeGraph)
    (from_point_id to_point_id : String) : List KnowledgePoint :=
  let all_prereqs := g.get_all_prerequisites_recursive to_point_id
  let path := learningPathLoop from_point_id all_prereqs false
  match g.get_point to_point_id with
  | some target => path ++ [target]
  | none => path

def KnowledgeGraph.find_weak_point_root_cause (g : KnowledgeGraph) (weak_point_id : String)
    (student_mastered : List String) : Option KnowledgePoint :=
  let all_prereqs := g.get_all_prerequisites_recursive weak_point_id
  match all_prereqs.find? (fun p => decide (p.id ∉ student_mastered)) with
  | some p => some p
  | none => g.get_point weak_point_id

def KnowledgeGraph.get_points_by_grade_subject (g : KnowledgeGraph) (subject : Subject)
    (grade : Nat) : List KnowledgePoint :=
  g.points.filter (fun p => decide (p.subject = subject ∧ p.grade = grade))

/-- A knowledge point of the diamond-dependency scenario: `D` has
prerequisites `B, C`, each of which has prerequisite `A`. -/
def dPoint (i : String) (prereqs : List String) : KnowledgePoint :=
  ⟨i, Subject.math, 3, "图形", i, 2, prereqs, 3⟩

def diamondGraph : KnowledgeGraph :=
  ⟨[dPoint "A" [], dPoint "B" ["A"], dPoint "C" ["A"], dPoint "D" ["B", "C"]]⟩

example : diamondGraph.get_all_prerequisites_recursive "D" =
    [dPoint "A" [], dPoint "B" ["A"], dPoint "C" ["A"]] := by decide

example : (KnowledgeGraph.mk []).get_learning_path "a" "b" = [] := by decide

/-! ## Reachability along prerequisite edges -/

/-- `Edge g x y` holds when the point with id `x` exists in the graph and lists
`y` among its prerequisite ids. -/
def Edge (g : KnowledgeGraph) (x y : String) : Prop :=
  ∃ p, g.get_point x = some p ∧ y ∈ p.prerequisites

/-- `Reaches g x y`: `y` can be reached from `x` by following prerequisite
edges (reflexive-transitive closure); the ancestors of `x` are the `y ≠ x`
with `Reaches g x y`. -/
def Reaches (g : KnowledgeGraph) : String → String → Prop :=
  Relation.ReflTransGen (Edge g)

/-- An acyclic corpus: no id lies on a nontrivial prerequisite cycle. -/
def Acyclic (g : KnowledgeGraph) : Prop :=
  ∀ x, ¬ Relation.TransGen (Edge g) x x

theorem KnowledgeGraph.get_point_mem {g : KnowledgeGraph} {x : String} {p : KnowledgePoint}
    (h : g.get_point x = some p) : p ∈ g.points :=
  List.mem_of_find?_eq_some h

theorem KnowledgeGraph.get_point_id {g : KnowledgeGraph} {x : String} {p : KnowledgePoint}
    (h : g.get_point x = some p) : p.id = x := by
  have := List.find?_some h
  simpa using this

theorem edge_lt_of_rank {g : KnowledgeGraph} {f : String → Nat}
    (hf : ∀ p ∈ g.points, ∀ y ∈ p.prerequisites, f y < f p.id) :
    ∀ x y, Edge g x y → f y < f x := by
  rintro x y ⟨p, hp, hy⟩
  have hx := g.get_point_id hp
  have := hf p (g.get_point_mem hp) y hy
  rwa [hx] at this

/-- A decidable sufficient condition for acyclicity: a rank function that
strictly decreases along every prerequisite edge. -/
theorem acyclic_of_rank (g : KnowledgeGraph) (f : String → Nat)
    (hf : ∀ p ∈ g.points, ∀ y ∈ p.prerequisites, f y < f p.id) : Acyclic g := by
  intro x hx
  have hlt : ∀ {a b : String}, Relation.TransGen (Edge g) a b → f b < f a := by
    intro a b h
    induction h with
    | single h => exact edge_lt_of_rank hf _ _ h
    | tail _ h ih => exact lt_trans (edge_lt_of_rank hf _ _ h) ih
  exact lt_irrefl _ (hlt hx)

/-! ## The DFS invariant

`DfsInv g rootId stack s` captures the state of the Python DFS at the moment a
recursive call with "gray" ids `stack` (the ids currently on the call stack,
outermost first) observes state `s`.  "Black" ids are the visited ids not on
the stack: missing from the graph, the root, or fully processed and appended
to `result`. -/
structure DfsInv (g : KnowledgeGraph) (rootId : String) (stack : List String)
    (s : DfsState) : Prop where
  nodup : (s.result.map KnowledgePoint.id).Nodup
  lookup : ∀ p ∈ s.result, g.get_point p.id = some p
  res_visited : ∀ p ∈ s.result, p.id ∈ s.visited
  res_not_root : ∀ p ∈ s.result, p.id ≠ rootId
  res_not_stack : ∀ p ∈ s.result, p.id ∉ stack
  res_reach : ∀ p ∈ s.result, Reaches g rootId p.id
  stack_visited : ∀ x ∈ stack, x ∈ s.visited
  black_result : ∀ v ∈ s.visited, v ∉ stack → v ≠ rootId →
    ∀ q, g.get_point v = some q → q ∈ s.result
  black_closed : ∀ v ∈ s.visited, v ∉ stack →
    ∀ q, g.get_point v = some q → ∀ y ∈ q.prerequisites, y ∈ s.visited
  ordered : ∀ i (hi : i < s.result.length), ∀ y ∈ (s.result.get ⟨i, hi⟩).prerequisites,
    ∀ q, g.get_point y = some q →
      ∃ j, ∃ hj : j < s.result.length, j < i ∧ s.result.get ⟨j, hj⟩ = q

/-- The call-stack discipline of the DFS: every gray id reaches the current
id, the root is at the bottom of a nonempty stack, and an empty stack means we
are at the top-level call on the root. -/
structure StackChain (g : KnowledgeGraph) (rootId : String) (stack : List String)
    (pid : String) : Prop where
  mem_reach : ∀ y ∈ stack, Reaches g y pid
  empty_root : stack = [] → pid = rootId
  root_mem : stack ≠ [] → rootId ∈ stack
  root_reach : Reaches g rootId pid

theorem StackChain.extend {g : KnowledgeGraph} {rootId : String} {stack : List String}
    {pid c : String} (sc : StackChain g rootId stack pid) (h : Edge g pid c) :
    StackChain g rootId (stack ++ [pid]) c := by
  refine ⟨?_, ?_, ?_, ?_⟩
  · intro y hy
    rcases List.mem_append.1 hy with hy | hy
    · exact (sc.mem_reach y hy).tail h
    · simp only [List.mem_singleton] at hy
      subst hy
      exact Relation.ReflTransGen.single h
  · intro habs
    simp at habs
  · intro _
    rcases List.eq_nil_or_concat stack with rfl | _
    · simp [sc.empty_root rfl]
    · exact List.mem_append.2 (Or.inl (sc.root_mem (by
        intro habs
        subst habs
        simp_all)))
  · exact sc.root_reach.tail h

/-- The invariant holds for the initial state of the top-level call. -/
theorem DfsInv.initial (g : KnowledgeGraph) (rootId : String) :
    DfsInv g rootId [] ⟨[], []⟩ := by
  refine ⟨?_, ?_, ?_, ?_, ?_, ?_, ?_, ?_, ?_, ?_⟩ <;> simp

theorem StackChain.start (g : KnowledgeGraph) (rootId : String) :
    StackChain g rootId [] rootId :=
  ⟨by simp, fun _ => rfl, by simp, Relation.ReflTransGen.refl⟩

/-- Entering a fresh node: it is pushed on the visited set and becomes gray. -/
theorem DfsInv.push {g : KnowledgeGraph} {rootId : String} {stack : List String}
    {s : DfsState} {pid : String} (inv : DfsInv g rootId stack s) (hnv : pid ∉ s.visited) :
    DfsInv g rootId (stack ++ [pid]) ⟨pid :: s.visited, s.result⟩ := by
  refine ⟨inv.nodup, inv.lookup, ?_, inv.res_not_root, ?_, inv.res_reach, ?_, ?_, ?_, inv.ordered⟩
  · intro p hp
    exact List.mem_cons_of_mem _ (inv.res_visited p hp)
  · intro p hp hmem
    rcases List.mem_append.1 hmem with h | h
    · exact inv.res_not_stack p hp h
    · simp only [List.mem_singleton] at h
      exact hnv (h ▸ inv.res_visited p hp)
  · intro x hx
    rcases List.mem_append.1 hx with h | h
    · exact List.mem_cons_of_mem _ (inv.stack_visited x h)
    · simp only [List.mem_singleton] at h
      simp [h]
  · intro v hv hst hroot q hq
    have hvpid : v ≠ pid := fun h => hst (h ▸ List.mem_append.2 (Or.inr (by simp)))
    have hv' : v ∈ s.visited := by
      rcases List.mem_cons.1 hv with h | h
      · exact absurd h hvpid
      · exact h
    exact inv.black_result v hv' (fun h => hst (List.mem_append.2 (Or.inl h))) hroot q hq
  · intro v hv hst q hq y hy
    have hvpid : v ≠ pid := fun h => hst (h ▸ List.mem_append.2 (Or.inr (by simp)))
    have hv' : v ∈ s.visited := by
      rcases List.mem_cons.1 hv with h | h
      · exact absurd h hvpid
      · exact h
    exact List.mem_cons_of_mem _
      (inv.black_closed v hv' (fun h => hst (List.mem_append.2 (Or.inl h))) q hq y hy)

/-- Entering a node missing from the graph: it is marked visited and the call
returns at once; the invariant for the caller's stack is preserved. -/
theorem DfsInv.push_missing {g : KnowledgeGraph} {rootId : String} {stack : List String}
    {s : DfsState} {pid : String} (inv : DfsInv g rootId stack s)
    (hm : g.get_point pid = none) :
    DfsInv g rootId stack ⟨pid :: s.visited, s.result⟩ := by
  refine ⟨inv.nodup, inv.lookup, ?_, inv.res_not_root, inv.res_not_stack, inv.res_reach,
    ?_, ?_, ?_, inv.ordered⟩
  · intro p hp
    exact List.mem_cons_of_mem _ (inv.res_visited p hp)
  · intro x hx
    exact List.mem_cons_of_mem _ (inv.stack_visited x hx)
  · intro v hv hst hroot q hq
    rcases List.mem_cons.1 hv with h | h
    · rw [h] at hq
      simp [hm] at hq
    · exact inv.black_result v h hst hroot q hq
  · intro v hv hst q hq y hy
    rcases List.mem_cons.1 hv with h | h
    · rw [h] at hq
      simp [hm] at hq
    · exact List.mem_cons_of_mem _ (inv.black_closed v h hst q hq y hy)

/-- Leaving the root node: nothing is appended, the node turns black. -/
theorem DfsInv.pop_root {g : KnowledgeGraph} {rootId : String} {stack : List String}
    {s2 : DfsState} {pid : String} {point : KnowledgePoint}
    (inv : DfsInv g rootId (stack ++ [pid]) s2)
    (hpt : g.get_point pid = some point)
    (hsubs : ∀ y ∈ point.prerequisites, y ∈ s2.visited)
    (hroot : pid = rootId) :
    DfsInv g rootId stack s2 := by
  refine ⟨inv.nodup, inv.lookup, inv.res_visited, inv.res_not_root, ?_, inv.res_reach,
    ?_, ?_, ?_, inv.ordered⟩
  · intro p hp h
    exact inv.res_not_stack p hp (List.mem_append.2 (Or.inl h))
  · intro x hx
    exact inv.stack_visited x (List.mem_append.2 (Or.inl hx))
  · intro v hv hst hr q hq
    have hvpid : v ≠ pid := fun h => hr (h.trans hroot)
    exact inv.black_result v hv
      (fun h => by
        rcases List.mem_append.1 h with h | h
        · exact hst h
        · simp only [List.mem_singleton] at h
          exact hvpid h) hr q hq
  · intro v hv hst q hq y hy
    by_cases hvpid : v = pid
    · subst hvpid
      rw [hpt] at hq
      cases hq
      exact hsubs y hy
    · exact inv.black_closed v hv
        (fun h => by
          rcases List.mem_append.1 h with h | h
          · exact hst h
          · simp only [List.mem_singleton] at h
            exact hvpid h) q hq y hy

/-- Leaving a non-root node: it is appended to the result and turns black.
Acyclicity guarantees that every prerequisite that resolves to a graph point
was already appended, which is what keeps the result in dependency order. -/
theorem DfsInv.pop_append {g : KnowledgeGraph} {rootId : String} {stack : List String}
    {s2 : DfsState} {pid : String} {point : KnowledgePoint}
    (hac : Acyclic g) (sc : StackChain g rootId stack pid)
    (inv : DfsInv g rootId (stack ++ [pid]) s2)
    (hpt : g.get_point pid = some point)
    (hvis : pid ∈ s2.visited)
    (hsubs : ∀ y ∈ point.prerequisites, y ∈ s2.visited)
    (hnroot : pid ≠ rootId)
    (hnstack : pid ∉ stack) :
    DfsInv g rootId stack ⟨s2.visited, s2.result ++ [point]⟩ := by
  have hid : point.id = pid := g.get_point_id hpt
  have hedge : ∀ y ∈ point.prerequisites, Edge g pid y := fun y hy => ⟨point, hpt, hy⟩
  have hnst : ∀ y ∈ point.prerequisites, y ∉ stack ++ [pid] := by
    intro y hy hmem
    rcases List.mem_append.1 hmem with h | h
    · exact hac y (Relation.TransGen.tail' (sc.mem_reach y h) (hedge y hy))
    · simp only [List.mem_singleton] at h
      subst h
      exact hac y (Relation.TransGen.single (hedge y hy))
  have hyroot : ∀ y ∈ point.prerequisites, y ≠ rootId := by
    intro y hy hyr
    rcases List.eq_nil_or_concat stack with rfl | ⟨_, _, rfl⟩
    · exact hnroot (sc.empty_root rfl)
    · exact hnst y hy (List.mem_append.2 (Or.inl (hyr ▸ sc.root_mem (by simp))))
  have hres : ∀ y ∈ point.prerequisites, ∀ q, g.get_point y = some q → q ∈ s2.result :=
    fun y hy q hq =>
      inv.black_result y (hsubs y hy) (hnst y hy) (hyroot y hy) q hq
  have hold_ne : ∀ p ∈ s2.result, p.id ≠ pid := fun p hp h =>
    inv.res_not_stack p hp (List.mem_append.2 (Or.inr (by simp [h])))
  refine ⟨?_, ?_, ?_, ?_, ?_, ?_, ?_, ?_, ?_, ?_⟩
  · simp only [List.map_append, List.map_cons, List.map_nil]
    rw [List.nodup_append]
    refine ⟨inv.nodup, by simp, ?_⟩
    intro a ha hb
    simp only [List.mem_singleton] at hb
    rcases List.mem_map.1 ha with ⟨p, hp, rfl⟩
    exact hold_ne p hp (hb.trans hid)
  · intro p hp
    rcases List.mem_append.1 hp with h | h
    · exact inv.lookup p h
    · simp only [List.mem_singleton] at h
      subst h
      rw [hid]
      exact hpt
  · intro p hp
    rcases List.mem_append.1 hp with h | h
    · exact inv.res_visited p h
    · simp only [List.mem_singleton] at h
      subst h
      rw [hid]
      exact hvis
  · intro p hp
    rcases List.mem_append.1 hp with h | h
    · exact inv.res_not_root p h
    · simp only [List.mem_singleton] at h
      subst h
      rw [hid]
      exact hnroot
  · intro p hp
    rcases List.mem_append.1 hp with h | h
    · exact fun hm => inv.res_not_stack p h (List.mem_append.2 (Or.inl hm))
    · simp only [List.mem_singleton] at h
      subst h
      rw [hid]
      exact hnstack
  · intro p hp
    rcases List.mem_append.1 hp with h | h
    · exact inv.res_reach p h
    · simp only [List.mem_singleton] at h
      subst h
      rw [hid]
      exact sc.root_reach
  · intro x hx
    exact inv.stack_visited x (List.mem_append.2 (Or.inl hx))
  · intro v hv hst hr q hq
    by_cases hvpid : v = pid
    · subst hvpid
      rw [hpt] at hq
      cases hq
      exact List.mem_append.2 (Or.inr (by simp))
    · refine List.mem_append.2 (Or.inl ?_)
      exact inv.black_result v hv
        (fun h => by
          rcases List.mem_append.1 h with h | h
          · exact hst h
          · simp only [List.mem_singleton] at h
            exact hvpid h) hr q hq
  · intro v hv hst q hq y hy
    by_cases hvpid : v = pid
    · subst hvpid
      rw [hpt] at hq
      cases hq
      exact hsubs y hy
    · exact inv.black_closed v hv
        (fun h => by
          rcases List.mem_append.1 h with h | h
          · exact hst h
          · simp only [List.mem_singleton] at h
            exact hvpid h) q hq y hy
  · intro i hi y hy q hq
    simp only [List.length_append, List.length_singleton] at hi
    by_cases hilt : i < s2.result.length
    · have hget : (s2.result ++ [point]).get ⟨i, by simpa using hi⟩ =
          s2.result.get ⟨i, hilt⟩ := by
        simp only [List.get_eq_getElem]
        exact List.getElem_append_left hilt
      rw [hget] at hy
      rcases inv.ordered i hilt y hy q hq with ⟨j, hj, hji, hgj⟩
      refine ⟨j, by simp; omega, hji, ?_⟩
      rw [← hgj]
      simp only [List.get_eq_getElem]
      exact List.getElem_append_left hj
    · have hieq : i = s2.result.length := by omega
      have hget : (s2.result ++ [point]).get ⟨i, by simpa using hi⟩ = point := by
        simp only [List.get_eq_getElem]
        exact List.getElem_concat_length _ _ _ hieq _
      rw [hget] at hy
      have hqmem := hres y hy q hq
      rcases List.get_of_mem hqmem with ⟨⟨j, hj⟩, hgj⟩
      refine ⟨j, by simp; omega, by omega, ?_⟩
      rw [← hgj]
      simp only [List.get_eq_getElem]
      exact List.getElem_append_left hj

/-! ## Basic bookkeeping of the DFS (no acyclicity needed)

`StepOk s s'` records that a call only grows the visited set, only appends to
the result, and that the appended points carry pairwise-distinct ids that were
unvisited before the call — this is the visited-set guard doing its job. -/

def StepOk (s s' : DfsState) : Prop :=
  (∀ v ∈ s.visited, v ∈ s'.visited) ∧
  ∃ t, s'.result = s.result ++ t ∧ (t.map KnowledgePoint.id).Nodup ∧
    ∀ p ∈ t, p.id ∉ s.visited ∧ p.id ∈ s'.visited

theorem StepOk.refl (s : DfsState) : StepOk s s :=
  ⟨fun _ h => h, [], by simp, by simp, by simp⟩

theorem StepOk.trans {s t u : DfsState} (h1 : StepOk s t) (h2 : StepOk t u) : StepOk s u := by
  obtain ⟨m1, t1, he1, hn1, hp1⟩ := h1
  obtain ⟨m2, t2, he2, hn2, hp2⟩ := h2
  refine ⟨fun v hv => m2 v (m1 v hv), t1 ++ t2, by rw [he2, he1, List.append_assoc], ?_, ?_⟩
  · simp only [List.map_append]
    rw [List.nodup_append]
    refine ⟨hn1, hn2, ?_⟩
    intro a ha hb
    rcases List.mem_map.1 ha with ⟨p, hp, rfl⟩
    rcases List.mem_map.1 hb with ⟨q, hq, hqa⟩
    exact (hp2 q hq).1 (hqa ▸ (hp1 p hp).2)
  · intro p hp
    rcases List.mem_append.1 hp with h | h
    · exact ⟨(hp1 p h).1, m2 _ (hp1 p h).2⟩
    · exact ⟨fun hm => (hp2 p h).1 (m1 _ hm), (hp2 p h).2⟩

theorem StepOk.push_visited {s : DfsState} (pid : String) :
    StepOk s ⟨pid :: s.visited, s.result⟩ :=
  ⟨fun _ h => List.mem_cons_of_mem _ h, [], by simp, by simp, by simp⟩

/-- The bookkeeping facts hold of every successful `dfsAux` call. -/
theorem dfs_basic (g : KnowledgeGraph) (rootId : String) :
    ∀ fuel pid s s', dfsAux g rootId fuel pid s = some s' → StepOk s s' := by
  intro fuel
  induction fuel with
  | zero =>
    intro pid s s' h
    simp [dfsAux] at h
  | succ fuel ih =>
    have hfold : ∀ (l : List String) (t t' : DfsState),
        l.foldlM (fun st q => dfsAux g rootId fuel q st) t = some t' → StepOk t t' := by
      intro l
      induction l with
      | nil =>
        intro t t' h
        simp only [List.foldlM_nil, pure, Option.some.injEq] at h
        exact h ▸ StepOk.refl t
      | cons c cs ihl =>
        intro t t' h
        rw [List.foldlM_cons] at h
        cases hc : dfsAux g rootId fuel c t with
        | none => rw [hc] at h; simp at h
        | some t1 =>
          rw [hc] at h
          simp only [Option.bind_eq_bind, Option.some_bind] at h
          exact (ih c t t1 hc).trans (ihl t1 t' h)
    intro pid s s' h
    rw [dfsAux] at h
    split at h
    · cases h
      exact StepOk.refl s
    · rename_i hv
      split at h
      · cases h
        exact StepOk.push_visited pid
      · rename_i point hpt
        cases hfd : point.prerequisites.foldlM (fun st q => dfsAux g rootId fuel q st)
            ⟨pid :: s.visited, s.result⟩ with
        | none =>
          simp only [hfd] at h
          cases h
        | some s2 =>
          simp only [hfd] at h
          have hstep : StepOk s s2 :=
            (StepOk.push_visited pid).trans (hfold _ _ _ hfd)
          split at h
          · cases h
            exact hstep
          · cases h
            obtain ⟨m2, t2, he2, hn2, hp2⟩ := hfold _ _ _ hfd
            refine ⟨fun v hv' => m2 v (List.mem_cons_of_mem _ hv'), t2 ++ [point], ?_, ?_, ?_⟩
            · simp [he2]
            · simp only [List.map_append]
              rw [List.nodup_append]
              refine ⟨hn2, by simp, ?_⟩
              intro a ha hb
              simp only [List.map_cons, List.map_nil, List.mem_singleton] at hb
              rcases List.mem_map.1 ha with ⟨p, hp, rfl⟩
              exact (hp2 p hp).1 (by
                rw [hb, g.get_point_id hpt]
                exact List.mem_cons_self _ _)
            · intro p hp
              rcases List.mem_append.1 hp with hmem | hmem
              · exact ⟨fun hm => (hp2 p hmem).1 (List.mem_cons_of_mem _ hm), (hp2 p hmem).2⟩
              · simp only [List.mem_singleton] at hmem
                subst hmem
                rw [g.get_point_id hpt]
                exact ⟨hv, m2 pid (List.mem_cons_self _ _)⟩

/-- `dfs_basic` lifted to the fold over a prerequisite list. -/
theorem fold_basic (g : KnowledgeGraph) (rootId : String) (fuel : Nat) :
    ∀ (l : List String) (t t' : DfsState),
      l.foldlM (fun st q => dfsAux g rootId fuel q st) t = some t' → StepOk t t' := by
  intro l
  induction l with
  | nil =>
    intro t t' h
    simp only [List.foldlM_nil, pure, Option.some.injEq] at h
    exact h ▸ StepOk.refl t
  | cons c cs ihl =>
    intro t t' h
    rw [List.foldlM_cons] at h
    cases hc : dfsAux g rootId fuel c t with
    | none => rw [hc] at h; simp at h
    | some t1 =>
      rw [hc] at h
      simp only [Option.bind_eq_bind, Option.some_bind] at h
      exact (dfs_basic g rootId fuel c t t1 hc).trans (ihl t1 t' h)

/-! ## Termination: the standard fuel always suffices -/

/-- Number of distinct graph ids not yet visited; the measure that shrinks
every time the DFS enters a fresh graph node. -/
def unvis (g : KnowledgeGraph) (V : List String) : Nat :=
  ((g.points.map KnowledgePoint.id).dedup.filter (fun v => decide (v ∉ V))).length

theorem filter_imp_length_le {α : Type} (p q : α → Bool) :
    ∀ l : List α, (∀ x ∈ l, p x = true → q x = true) →
      (l.filter p).length ≤ (l.filter q).length := by
  intro l
  induction l with
  | nil => simp
  | cons a t ih =>
    intro h
    have ht := ih fun x hx => h x (List.mem_cons_of_mem _ hx)
    by_cases hp : p a = true
    · have hq := h a (List.mem_cons_self _ _) hp
      rw [List.filter_cons_of_pos hp, List.filter_cons_of_pos hq]
      simp only [List.length_cons]
      omega
    · rw [List.filter_cons_of_neg hp]
      by_cases hq : q a = true
      · rw [List.filter_cons_of_pos hq]
        simp only [List.length_cons]
        omega
      · rw [List.filter_cons_of_neg hq]
        exact ht

theorem filter_length_lt_of_pred {α : Type} (p q : α → Bool)
    (himp : ∀ x, p x = true → q x = true) :
    ∀ (l : List α) (a : α), a ∈ l → p a = false → q a = true →
      (l.filter p).length < (l.filter q).length := by
  intro l
  induction l with
  | nil =>
    intro a ha
    simp at ha
  | cons b t ih =>
    intro a ha hpa hqa
    by_cases hba : b = a
    · subst hba
      have h1 : ¬ (p b = true) := by simp [hpa]
      rw [List.filter_cons_of_neg h1, List.filter_cons_of_pos hqa]
      simp only [List.length_cons]
      have hle := filter_imp_length_le p q t (fun x _ hx => himp x hx)
      omega
    · have ha' : a ∈ t := by
        rcases List.mem_cons.1 ha with h | h
        · exact absurd h.symm hba
        · exact h
      by_cases hpb : p b = true
      · rw [List.filter_cons_of_pos hpb, List.filter_cons_of_pos (himp b hpb)]
        simp only [List.length_cons]
        exact Nat.succ_lt_succ (ih a ha' hpa hqa)
      · rw [List.filter_cons_of_neg hpb]
        by_cases hqb : q b = true
        · rw [List.filter_cons_of_pos hqb]
          simp only [List.length_cons]
          have := ih a ha' hpa hqa
          omega
        · rw [List.filter_cons_of_neg hqb]
          exact ih a ha' hpa hqa

theorem unvis_mono (g : KnowledgeGraph) {V V' : List String} (h : ∀ v ∈ V, v ∈ V') :
    unvis g V' ≤ unvis g V := by
  refine filter_imp_length_le _ _ _ ?_
  intro x _ hx
  simp only [decide_eq_true_eq] at hx ⊢
  exact fun hmem => hx (h x hmem)

theorem unvis_cons_lt (g : KnowledgeGraph) {V : List String} {pid : String}
    (hin : pid ∈ g.points.map KnowledgePoint.id) (hnv : pid ∉ V) :
    unvis g (pid :: V) < unvis g V := by
  refine filter_length_lt_of_pred (fun v => decide (v ∉ pid :: V)) (fun v => decide (v ∉ V))
    ?_ _ pid (List.mem_dedup.2 hin) (by simp) (by simpa using hnv)
  intro x hx
  simp only [decide_eq_true_eq, List.mem_cons, not_or] at hx ⊢
  exact hx.2

/-- Fuel exceeding the number of unvisited graph ids is enough for `dfsAux`
to return: the cycle/diamond guard `pid ∈ visited` cuts every repeated id. -/
theorem dfsAux_total (g : KnowledgeGraph) (rootId : String) :
    ∀ fuel pid s, unvis g s.visited < fuel → (dfsAux g rootId fuel pid s).isSome := by
  intro fuel
  induction fuel with
  | zero =>
    intro pid s h
    exact absurd h (Nat.not_lt_zero _)
  | succ fuel ih =>
    intro pid s hfuel
    rw [dfsAux]
    by_cases hv : pid ∈ s.visited
    · rw [if_pos hv]
      simp
    · rw [if_neg hv]
      cases hpt : g.get_point pid with
      | none => simp
      | some point =>
        simp only
        have hpmem : pid ∈ g.points.map KnowledgePoint.id :=
          List.mem_map.2 ⟨point, g.get_point_mem hpt, g.get_point_id hpt⟩
        have hs1 : unvis g (pid :: s.visited) < fuel := by
          have hlt := unvis_cons_lt g hpmem hv
          omega
        have hfold : ∀ (l : List String) (t : DfsState), unvis g t.visited < fuel →
            ∃ t', l.foldlM (fun st q => dfsAux g rootId fuel q st) t = some t' := by
          intro l
          induction l with
          | nil =>
            intro t _
            exact ⟨t, rfl⟩
          | cons c cs ihl =>
            intro t ht
            obtain ⟨t1, ht1⟩ := Option.isSome_iff_exists.1 (ih c t ht)
            have hmono := (dfs_basic g rootId fuel c t t1 ht1).1
            have hle : unvis g t1.visited ≤ unvis g t.visited := unvis_mono g hmono
            obtain ⟨t', ht'⟩ := ihl t1 (lt_of_le_of_lt hle ht)
            refine ⟨t', ?_⟩
            rw [List.foldlM_cons, ht1]
            simpa using ht'
        obtain ⟨s2, hs2⟩ := hfold point.prerequisites ⟨pid :: s.visited, s.result⟩ hs1
        simp only [hs2]
        by_cases hr : pid = rootId <;> simp [hr]

/-! ## The main DFS specification -/

/-- On an acyclic corpus, every successful `dfsAux` call preserves the DFS
invariant, marks the current id visited, and only visits ids reachable from
the current id. -/
theorem dfs_spec (g : KnowledgeGraph) (rootId : String) (hac : Acyclic g) :
    ∀ fuel pid stack s s',
      StackChain g rootId stack pid →
      DfsInv g rootId stack s →
      dfsAux g rootId fuel pid s = some s' →
      DfsInv g rootId stack s' ∧ pid ∈ s'.visited ∧
        (∀ y ∈ s'.visited, y ∈ s.visited ∨ Reaches g pid y) := by
  intro fuel
  induction fuel with
  | zero =>
    intro pid stack s s' _ _ h
    simp [dfsAux] at h
  | succ fuel ih =>
    have hfold : ∀ (pid : String) (stack : List String) (point : KnowledgePoint),
        g.get_point pid = some point →
        StackChain g rootId stack pid →
        ∀ (l : List String), (∀ c ∈ l, c ∈ point.prerequisites) →
        ∀ (t t' : DfsState),
          DfsInv g rootId (stack ++ [pid]) t →
          l.foldlM (fun st q => dfsAux g rootId fuel q st) t = some t' →
          DfsInv g rootId (stack ++ [pid]) t' ∧
            (∀ c ∈ l, c ∈ t'.visited) ∧
            (∀ y ∈ t'.visited, y ∈ t.visited ∨ ∃ c ∈ l, Reaches g c y) := by
      intro pid stack point hpt sc l
      induction l with
      | nil =>
        intro _ t t' hinv h
        simp only [List.foldlM_nil, pure, Option.some.injEq] at h
        subst h
        exact ⟨hinv, by simp, fun y hy => Or.inl hy⟩
      | cons c cs ihl =>
        intro hsub t t' hinv h
        rw [List.foldlM_cons] at h
        cases hc : dfsAux g rootId fuel c t with
        | none => rw [hc] at h; simp at h
        | some t1 =>
          rw [hc] at h
          simp only [Option.bind_eq_bind, Option.some_bind] at h
          have hedge : Edge g pid c := ⟨point, hpt, hsub c (List.mem_cons_self _ _)⟩
          obtain ⟨hinv1, hcvis, hsound1⟩ := ih c (stack ++ [pid]) t t1 (sc.extend hedge) hinv hc
          obtain ⟨hinv2, hcs, hsound2⟩ :=
            ihl (fun x hx => hsub x (List.mem_cons_of_mem _ hx)) t1 t' hinv1 h
          have hmono2 := (fold_basic g rootId fuel cs t1 t' h).1
          refine ⟨hinv2, ?_, ?_⟩
          · intro x hx
            rcases List.mem_cons.1 hx with hx | hx
            · exact hx ▸ hmono2 c hcvis
            · exact hcs x hx
          · intro y hy
            rcases hsound2 y hy with hy1 | ⟨c', hc', hr⟩
            · rcases hsound1 y hy1 with hy0 | hr
              · exact Or.inl hy0
              · exact Or.inr ⟨c, List.mem_cons_self _ _, hr⟩
            · exact Or.inr ⟨c', List.mem_cons_of_mem _ hc', hr⟩
    intro pid stack s s' sc hinv h
    rw [dfsAux] at h
    split at h
    · rename_i hv
      cases h
      exact ⟨hinv, hv, fun y hy => Or.inl hy⟩
    · rename_i hv
      split at h
      · rename_i hpt
        cases h
        refine ⟨hinv.push_missing hpt, List.mem_cons_self _ _, ?_⟩
        intro y hy
        rcases List.mem_cons.1 hy with hy | hy
        · exact Or.inr (hy ▸ Relation.ReflTransGen.refl)
        · exact Or.inl hy
      · rename_i point hpt
        cases hfd : point.prerequisites.foldlM (fun st q => dfsAux g rootId fuel q st)
            ⟨pid :: s.visited, s.result⟩ with
        | none =>
          simp only [hfd] at h
          cases h
        | some s2 =>
          simp only [hfd] at h
          have hinv1 := hinv.push hv
          obtain ⟨hinv2, hcs, hsound⟩ :=
            hfold pid stack point hpt sc point.prerequisites (fun c hc => hc) _ s2 hinv1 hfd
          have hpidvis : pid ∈ s2.visited :=
            (fold_basic g rootId fuel point.prerequisites _ s2 hfd).1 pid (List.mem_cons_self _ _)
          have hsound' : ∀ y ∈ s2.visited, y ∈ s.visited ∨ Reaches g pid y := by
            intro y hy
            rcases hsound y hy with hy1 | ⟨c, hc, hr⟩
            · rcases List.mem_cons.1 hy1 with hy0 | hy0
              · exact Or.inr (hy0 ▸ Relation.ReflTransGen.refl)
              · exact Or.inl hy0
            · exact Or.inr (Relation.ReflTransGen.trans
                (Relation.ReflTransGen.single ⟨point, hpt, hc⟩) hr)
          split at h
          · rename_i hr
            cases h
            exact ⟨hinv2.pop_root hpt (fun y hy => hcs y hy) hr, hpidvis, hsound'⟩
          · rename_i hr
            cases h
            exact ⟨hinv2.pop_append hac sc hpt hpidvis (fun y hy => hcs y hy) hr
              (fun hm => hv (hinv.stack_visited pid hm)), hpidvis, hsound'⟩

/-! ## From the invariant to the closure theorems -/

theorem reach_mem_closed (g : KnowledgeGraph) {V : List String}
    (hcl : ∀ v ∈ V, ∀ q, g.get_point v = some q → ∀ y ∈ q.prerequisites, y ∈ V)
    {x y : String} (hx : x ∈ V) (hr : Reaches g x y) : y ∈ V := by
  induction hr with
  | refl => exact hx
  | tail _ hedge ihy =>
    rcases hedge with ⟨q, hq, hmem⟩
    exact hcl _ ihy q hq _ hmem

theorem transGen_edge_src {g : KnowledgeGraph} {m b : String}
    (h : Relation.TransGen (Edge g) m b) : ∃ q, g.get_point m = some q := by
  induction h with
  | single h' =>
    rcases h' with ⟨q, hq, _⟩
    exact ⟨q, hq⟩
  | tail _ _ ih => exact ih

theorem reflTransGen_ne_transGen {α : Type} {r : α → α → Prop} {a b : α}
    (h : Relation.ReflTransGen r a b) (hne : a ≠ b) : Relation.TransGen r a b := by
  rcases Relation.reflTransGen_iff_eq_or_transGen.1 h with h' | h'
  · exact absurd h'.symm hne
  · exact h'

theorem nodup_id_index {r : List KnowledgePoint}
    (hnodup : (r.map KnowledgePoint.id).Nodup) {i j : Nat}
    (hi : i < r.length) (hj : j < r.length)
    (h : (r.get ⟨i, hi⟩).id = (r.get ⟨j, hj⟩).id) : i = j := by
  have hmap : (r.map KnowledgePoint.id).get ⟨i, by simpa using hi⟩ =
      (r.map KnowledgePoint.id).get ⟨j, by simpa using hj⟩ := by
    simp only [List.get_eq_getElem, List.getElem_map]
    simpa using h
  have := (List.Nodup.get_inj_iff hnodup).1 hmap
  exact congrArg Fin.val this

/-- A list in which every resolving direct prerequisite of an entry occurs
strictly earlier is topologically sorted: transitive dependencies also occur
strictly earlier. -/
theorem result_order (g : KnowledgeGraph) (r : List KnowledgePoint)
    (hord : ∀ i (hi : i < r.length), ∀ y ∈ (r.get ⟨i, hi⟩).prerequisites,
      ∀ q, g.get_point y = some q → ∃ j, ∃ hj : j < r.length, j < i ∧ r.get ⟨j, hj⟩ = q)
    (hlookup : ∀ p ∈ r, g.get_point p.id = some p)
    (hnodup : (r.map KnowledgePoint.id).Nodup) :
    ∀ j (hj : j < r.length) i (hi : i < r.length),
      Relation.TransGen (Edge g) (r.get ⟨i, hi⟩).id (r.get ⟨j, hj⟩).id → j < i := by
  intro j hj
  suffices h : ∀ x, Relation.TransGen (Edge g) x (r.get ⟨j, hj⟩).id →
      ∀ i (hi : i < r.length), (r.get ⟨i, hi⟩).id = x → j < i by
    intro i hi htg
    exact h _ htg i hi rfl
  intro x htg
  induction htg using Relation.TransGen.head_induction_on with
  | base hedge =>
    intro i hi hxi
    rcases hedge with ⟨q, hq, hmem⟩
    rw [← hxi] at hq
    have hri := hlookup _ (r.get_mem i hi)
    rw [hri] at hq
    cases hq
    rcases hord i hi _ hmem (r.get ⟨j, hj⟩) (hlookup _ (r.get_mem j hj)) with
      ⟨j', hj', hji, hgj⟩
    have hjeq : j' = j :=
      nodup_id_index hnodup hj' hj (by rw [hgj])
    omega
  | ih hedge htg' ihm =>
    intro i hi hxi
    rcases hedge with ⟨q, hq, hmem⟩
    rw [← hxi] at hq
    have hri := hlookup _ (r.get_mem i hi)
    rw [hri] at hq
    cases hq
    rcases transGen_edge_src htg' with ⟨q', hq'⟩
    rcases hord i hi _ hmem q' hq' with ⟨k, hk, hki, hgk⟩
    have hkm := ihm k hk (by rw [hgk]; exact g.get_point_id hq')
    omega

/-- The standard-fuel run of the DFS from the root succeeds and its final
state satisfies the invariant with an empty stack. -/
theorem closure_run (g : KnowledgeGraph) (X : String) (hac : Acyclic g) :
    ∃ s', dfsAux g X (g.points.length + 1) X ⟨[], []⟩ = some s' ∧
      DfsInv g X [] s' ∧ X ∈ s'.visited ∧
      (∀ y ∈ s'.visited, Reaches g X y) ∧
      g.get_all_prerequisites_recursive X = s'.result := by
  have hbound : unvis g ([] : List String) < g.points.length + 1 := by
    have h1 : unvis g ([] : List String) ≤ (g.points.map KnowledgePoint.id).dedup.length :=
      List.length_filter_le _ _
    have h2 : (g.points.map KnowledgePoint.id).dedup.length ≤
        (g.points.map KnowledgePoint.id).length :=
      (List.dedup_sublist _).length_le
    simp only [List.length_map] at h2
    omega
  have htot := dfsAux_total g X (g.points.length + 1) X ⟨[], []⟩ hbound
  obtain ⟨s', hs'⟩ := Option.isSome_iff_exists.1 htot
  obtain ⟨hinv, hvis, hsound⟩ :=
    dfs_spec g X hac _ X [] _ s' (StackChain.start g X) (DfsInv.initial g X) hs'
  refine ⟨s', hs', hinv, hvis, ?_, ?_⟩
  · intro y hy
    rcases hsound y hy with h | h
    · simp at h
    · exact h
  · unfold KnowledgeGraph.get_all_prerequisites_recursive KnowledgeGraph.get_all_prerequisites_opt
    rw [hs']
    rfl

/-- Rank function witnessing acyclicity of the diamond graph. -/
def diamondRank : String → Nat :=
  fun x => if x = "D" then 2 else if x = "B" ∨ x = "C" then 1 else 0

/-- C1: on any acyclic corpus, `get_all_prerequisites_recursive X` contains
exactly the ancestors of `X` (the graph points reachable from `X` along
prerequisite edges, other than `X` itself), each exactly once, each ancestor
appearing before every point that depends on it, and never `X`; and on the
diamond graph (`D` requires `B, C`; `B` and `C` require `A`) the closure of
`D` is `[A, B, C]` or `[A, C, B]`. -/
theorem C1_transitive_closure_correct (g : KnowledgeGraph) (X : String) (hac : Acyclic g) :
    (∀ p, p ∈ g.get_all_prerequisites_recursive X ↔
        (g.get_point p.id = some p ∧ p.id ≠ X ∧ Reaches g X p.id)) ∧
    ((g.get_all_prerequisites_recursive X).map KnowledgePoint.id).Nodup ∧
    (∀ p ∈ g.get_all_prerequisites_recursive X, p.id ≠ X) ∧
    (∀ i j (hi : i < (g.get_all_prerequisites_recursive X).length)
        (hj : j < (g.get_all_prerequisites_recursive X).length),
      Reaches g ((g.get_all_prerequisites_recursive X).get ⟨i, hi⟩).id
          ((g.get_all_prerequisites_recursive X).get ⟨j, hj⟩).id →
        i ≠ j → j < i) ∧
    (diamondGraph.get_all_prerequisites_recursive "D" =
        [dPoint "A" [], dPoint "B" ["A"], dPoint "C" ["A"]] ∨
      diamondGraph.get_all_prerequisites_recursive "D" =
        [dPoint "A" [], dPoint "C" ["A"], dPoint "B" ["A"]]) := by
  obtain ⟨s', _, hinv, hvis, hreachall, heq⟩ := closure_run g X hac
  have hclosed : ∀ v ∈ s'.visited, ∀ q, g.get_point v = some q →
      ∀ y ∈ q.prerequisites, y ∈ s'.visited := by
    intro v hv q hq y hy
    exact hinv.black_closed v hv (by simp) q hq y hy
  rw [heq]
  refine ⟨?_, hinv.nodup, hinv.res_not_root, ?_, Or.inl (by decide)⟩
  · intro p
    constructor
    · intro hp
      exact ⟨hinv.lookup p hp, hinv.res_not_root p hp, hinv.res_reach p hp⟩
    · rintro ⟨hlk, hne, hr⟩
      have hpvis : p.id ∈ s'.visited := reach_mem_closed g hclosed hvis hr
      exact hinv.black_result p.id hpvis (by simp) hne p hlk
  · intro i j hi hj hreach hne
    have hids : (s'.result.get ⟨i, hi⟩).id ≠ (s'.result.get ⟨j, hj⟩).id := by
      intro hcontra
      exact hne (nodup_id_index hinv.nodup hi hj hcontra)
    exact result_order g s'.result hinv.ordered hinv.lookup hinv.nodup j hj i hi
      (reflTransGen_ne_transGen hreach hids)

/-- Witness for C1: the diamond graph is acyclic (via the rank function), the
theorem applies to it, and the closure of `D` evaluates to `[A, B, C]`. -/
theorem C1_transitive_closure_correct_witness :
    diamondGraph.get_all_prerequisites_recursive "D" =
        [dPoint "A" [], dPoint "B" ["A"], dPoint "C" ["A"]] ∨
      diamondGraph.get_all_prerequisites_recursive "D" =
        [dPoint "A" [], dPoint "C" ["A"], dPoint "B" ["A"]] :=
  (C1_transitive_closure_correct diamondGraph "D"
    (acyclic_of_rank diamondGraph diamondRank (by decide))).2.2.2.2

/-- The two-point cyclic corpus A→B→A. -/
def cycleGraph : KnowledgeGraph :=
  ⟨[dPoint "A" ["B"], dPoint "B" ["A"]]⟩

/-- C2: on every corpus — cyclic ones included — and every starting id, the
DFS of `get_all_prerequisites_recursive` finishes within the standard fuel
(the fuelled computation returns `some`), producing a finite list whose
entries have pairwise-distinct ids (each id is expanded at most once); on the
concrete cycle A→B→A the closure of A is the finite list `[B]`. -/
theorem C2_cycle_safe_terminates (g : KnowledgeGraph) (point_id : String) :
    (∃ l, g.get_all_prerequisites_opt point_id = some l ∧
      g.get_all_prerequisites_recursive point_id = l ∧
      (l.map KnowledgePoint.id).Nodup) ∧
    cycleGraph.get_all_prerequisites_recursive "A" = [dPoint "B" ["A"]] := by
  have hbound : unvis g ([] : List String) < g.points.length + 1 := by
    have h1 : unvis g ([] : List String) ≤ (g.points.map KnowledgePoint.id).dedup.length :=
      List.length_filter_le _ _
    have h2 : (g.points.map KnowledgePoint.id).dedup.length ≤
        (g.points.map KnowledgePoint.id).length :=
      (List.dedup_sublist _).length_le
    simp only [List.length_map] at h2
    omega
  have htot := dfsAux_total g point_id (g.points.length + 1) point_id ⟨[], []⟩ hbound
  obtain ⟨s', hs'⟩ := Option.isSome_iff_exists.1 htot
  obtain ⟨_, t, he, hn, _⟩ := dfs_basic g point_id _ _ _ _ hs'
  refine ⟨⟨s'.result, ?_, ?_, ?_⟩, by decide⟩
  · unfold KnowledgeGraph.get_all_prerequisites_opt
    rw [hs']
    rfl
  · unfold KnowledgeGraph.get_all_prerequisites_recursive KnowledgeGraph.get_all_prerequisites_opt
    rw [hs']
    rfl
  · rw [he]
    simpa using hn

/-! ## First-match machinery for the root-cause search -/

theorem find?_get_first {α : Type} (p : α → Bool) :
    ∀ (l : List α) (i : Nat) (hi : i < l.length),
      p (l.get ⟨i, hi⟩) = true →
      (∀ j (hj : j < l.length), j < i → p (l.get ⟨j, hj⟩) = false) →
      l.find? p = some (l.get ⟨i, hi⟩) := by
  intro l
  induction l with
  | nil =>
    intro i hi
    simp at hi
  | cons a t ih =>
    intro i hi hpi hprev
    cases i with
    | zero =>
      exact List.find?_cons_of_pos _ hpi
    | succ k =>
      have hpa : p a = false := by
        have := hprev 0 (by simp) (Nat.succ_pos k)
        simpa using this
      rw [List.find?_cons_of_neg _ (by simp [hpa])]
      have hk : k < t.length := by simpa using hi
      exact ih k hk hpi (fun j hj hjk => hprev (j + 1) (by simpa using hj)
        (Nat.succ_lt_succ hjk))

theorem find?_eq_get?_takeWhile_not {α : Type} (p : α → Bool) :
    ∀ l : List α, l.find? p = l.get? ((l.takeWhile (fun a => !(p a))).length) := by
  intro l
  induction l with
  | nil => rfl
  | cons a t ih =>
    by_cases hpa : p a = true
    · rw [List.find?_cons_of_pos _ hpa, List.takeWhile_cons_of_neg (by simp [hpa])]
      rfl
    · rw [List.find?_cons_of_neg _ hpa, List.takeWhile_cons_of_pos (by simp [hpa])]
      simpa using ih

theorem takeWhile_length_mono {α : Type} (p q : α → Bool)
    (himp : ∀ x, p x = true → q x = true) :
    ∀ l : List α, (l.takeWhile p).length ≤ (l.takeWhile q).length := by
  intro l
  induction l with
  | nil => simp
  | cons a t ih =>
    by_cases hpa : p a = true
    · rw [List.takeWhile_cons_of_pos hpa, List.takeWhile_cons_of_pos (himp a hpa)]
      simpa using ih
    · rw [List.takeWhile_cons_of_neg (by simp [hpa])]
      simp

/-- The traversal-order position at which the root-cause scan stops: the
number of leading closure entries whose ids are all in `mastered` (equal to
the closure length when every entry is mastered). -/
def rootCausePos (g : KnowledgeGraph) (X : String) (M : List String) : Nat :=
  ((g.get_all_prerequisites_recursive X).takeWhile (fun p => decide (p.id ∈ M))).length

/-- The point sitting at a given position of the dependency-ordered closure,
with the point `X` itself at every out-of-range position. -/
def positionalRootCause (g : KnowledgeGraph) (X : String) (i : Nat) : Option KnowledgePoint :=
  match (g.get_all_prerequisites_recursive X).get? i with
  | some p => some p
  | none => g.get_point X

theorem find_weak_eq_positional (g : KnowledgeGraph) (X : String) (M : List String) :
    g.find_weak_point_root_cause X M = positionalRootCause g X (rootCausePos g X M) := by
  have hlink := find?_eq_get?_takeWhile_not (fun p : KnowledgePoint => decide (p.id ∉ M))
    (g.get_all_prerequisites_recursive X)
  have hpred : (fun (a : KnowledgePoint) => !(decide (a.id ∉ M))) =
      (fun p : KnowledgePoint => decide (p.id ∈ M)) := by
    funext a
    simp [decide_not]
  rw [hpred] at hlink
  simp only [KnowledgeGraph.find_weak_point_root_cause, positionalRootCause, rootCausePos, hlink]

/-- C3: for an id `weak_id` present in the graph, `find_weak_point_root_cause`
returns the first entry of the dependency-ordered closure whose id is not in
`mastered`; when every closure entry is mastered (in particular when the
closure is empty) it returns the point `weak_id` itself. -/
theorem C3_root_cause_spec (g : KnowledgeGraph) (weak_id : String)
    (mastered : List String) (w : KnowledgePoint) (hw : g.get_point weak_id = some w) :
    ((∀ q ∈ g.get_all_prerequisites_recursive weak_id, q.id ∈ mastered) →
      g.find_weak_point_root_cause weak_id mastered = some w) ∧
    (∀ i (hi : i < (g.get_all_prerequisites_recursive weak_id).length),
      ((g.get_all_prerequisites_recursive weak_id).get ⟨i, hi⟩).id ∉ mastered →
      (∀ j (hj : j < (g.get_all_prerequisites_recursive weak_id).length), j < i →
        ((g.get_all_prerequisites_recursive weak_id).get ⟨j, hj⟩).id ∈ mastered) →
      g.find_weak_point_root_cause weak_id mastered =
        some ((g.get_all_prerequisites_recursive weak_id).get ⟨i, hi⟩)) := by
  constructor
  · intro hall
    have hnone : (g.get_all_prerequisites_recursive weak_id).find?
        (fun p => decide (p.id ∉ mastered)) = none :=
      List.find?_eq_none.2 (fun x hx => by simpa using hall x hx)
    simp only [KnowledgeGraph.find_weak_point_root_cause, hnone, hw]
  · intro i hi hnm hbefore
    have hfind := find?_get_first (fun p : KnowledgePoint => decide (p.id ∉ mastered)) _ i hi
      (by simpa using hnm)
      (fun j hj hji => by simpa using hbefore j hj hji)
    simp only [KnowledgeGraph.find_weak_point_root_cause, hfind]

/-- Witness for C3 on the diamond graph with every prerequisite mastered:
the root cause is the weak point itself. -/
theorem C3_root_cause_spec_witness :
    diamondGraph.find_weak_point_root_cause "D" ["A", "B", "C"] =
      some (dPoint "D" ["B", "C"]) :=
  (C3_root_cause_spec diamondGraph "D" ["A", "B", "C"] (dPoint "D" ["B", "C"])
    (by decide)).1 (by decide)

/-- C4: enlarging the mastered set never moves the returned root cause to an
earlier position of the dependency-ordered closure (with the weak point
itself counting as the final position). -/
theorem C4_root_cause_monotone (g : KnowledgeGraph) (X : String) (M M' : List String)
    (hsub : ∀ x ∈ M', x ∈ M) :
    rootCausePos g X M' ≤ rootCausePos g X M ∧
    g.find_weak_point_root_cause X M = positionalRootCause g X (rootCausePos g X M) ∧
    g.find_weak_point_root_cause X M' = positionalRootCause g X (rootCausePos g X M') := by
  refine ⟨?_, find_weak_eq_positional g X M, find_weak_eq_positional g X M'⟩
  refine takeWhile_length_mono _ _ ?_ _
  intro x hx
  simp only [decide_eq_true_eq] at hx ⊢
  exact hsub _ hx

/-- Witness for C4 on the diamond graph with an empty smaller mastered set and
a larger one containing only A. -/
theorem C4_root_cause_monotone_witness :
    rootCausePos diamondGraph "D" [] ≤ rootCausePos diamondGraph "D" ["A"] ∧
    diamondGraph.find_weak_point_root_cause "D" ["A"] =
      positionalRootCause diamondGraph "D" (rootCausePos diamondGraph "D" ["A"]) ∧
    diamondGraph.find_weak_point_root_cause "D" [] =
      positionalRootCause diamondGraph "D" (rootCausePos diamondGraph "D" []) :=
  C4_root_cause_monotone diamondGraph "D" ["A"] [] (by simp)

/-- C6: for an id present in the graph, `check_readiness` is ready exactly
when every resolving direct prerequisite is mastered, and its `missing` field
lists the unmastered direct prerequisites; for a nonexistent id it returns the
not-ready/`reason` dictionary (and, being a total function, never raises). -/
theorem C6_check_readiness_spec (g : KnowledgeGraph) (X : String) (M : List String) :
    (∀ p, g.get_point X = some p →
      (((g.check_readiness X M).ready = true) ↔ ∀ q ∈ g.get_prerequisites X, q.id ∈ M) ∧
      (g.check_readiness X M).missingList =
        some ((g.get_prerequisites X).filter (fun q => decide (q.id ∉ M)))) ∧
    (g.get_point X = none →
      g.check_readiness X M = CheckResult.missing_point "知识点不存在" ∧
      (g.check_readiness X M).ready = false) := by
  constructor
  · intro p hp
    have hcr : g.check_readiness X M =
        (if ((g.get_prerequisites X).filter (fun q => decide (q.id ∉ M))).isEmpty then
          CheckResult.checked true [] ("可以学习「" ++ p.name ++ "」")
        else
          CheckResult.checked false
            ((g.get_prerequisites X).filter (fun q => decide (q.id ∉ M)))
            ("需要先掌握 " ++
              toString ((g.get_prerequisites X).filter (fun q => decide (q.id ∉ M))).length ++
              " 个前置知识点")) := by
      simp only [KnowledgeGraph.check_readiness, hp]
    by_cases hemp : ((g.get_prerequisites X).filter (fun q => decide (q.id ∉ M))).isEmpty = true
    · have hnil : (g.get_prerequisites X).filter (fun q => decide (q.id ∉ M)) = [] :=
        List.isEmpty_iff.1 hemp
      rw [hcr, if_pos hemp]
      constructor
      · simp only [CheckResult.ready, true_iff]
        intro q hq
        have := List.filter_eq_nil_iff.1 hnil q hq
        simpa using this
      · simp only [CheckResult.missingList, hnil]
    · have hne : (g.get_prerequisites X).filter (fun q => decide (q.id ∉ M)) ≠ [] := by
        intro hn
        exact hemp (List.isEmpty_iff.2 hn)
      rw [hcr, if_neg hemp]
      constructor
      · simp only [CheckResult.ready, Bool.false_eq_true, false_iff]
        intro hall
        refine hne (List.filter_eq_nil_iff.2 ?_)
        intro q hq
        simpa using hall q hq
      · simp only [CheckResult.missingList]
  · intro hnone
    have hcr : g.check_readiness X M = CheckResult.missing_point "知识点不存在" := by
      simp only [KnowledgeGraph.check_readiness, hnone]
    exact ⟨hcr, by rw [hcr]; rfl⟩

/-- Witness for C6 on the diamond graph: with both direct prerequisites
`B, C` mastered, `D` is ready. -/
theorem C6_check_readiness_spec_witness :
    (diamondGraph.check_readiness "D" ["B", "C"]).ready = true :=
  (((C6_check_readiness_spec diamondGraph "D" ["B", "C"]).1 (dPoint "D" ["B", "C"])
    (by decide)).1).2 (by decide)

/-- C10: for an id absent from the graph, `get_prerequisites` and
`get_all_prerequisites_recursive` return the empty list and
`find_weak_point_root_cause` returns `None`; all three are total functions,
so none of them raises. -/
theorem C10_unknown_id_graceful (g : KnowledgeGraph) (pid : String) (M : List String)
    (h : g.get_point pid = none) :
    g.get_prerequisites pid = [] ∧
    g.get_all_prerequisites_recursive pid = [] ∧
    g.find_weak_point_root_cause pid M = none := by
  have hclosure : g.get_all_prerequisites_recursive pid = [] := by
    unfold KnowledgeGraph.get_all_prerequisites_recursive KnowledgeGraph.get_all_prerequisites_opt
    rw [dfsAux]
    rw [if_neg (by simp)]
    simp only [h]
    rfl
  refine ⟨?_, hclosure, ?_⟩
  · unfold KnowledgeGraph.get_prerequisites
    rw [h]
  · unfold KnowledgeGraph.find_weak_point_root_cause
    rw [hclosure]
    simp only [List.find?_nil, h]

/-- Witness for C10: the id `z` is absent from the diamond graph. -/
theorem C10_unknown_id_graceful_witness :
    diamondGraph.get_prerequisites "z" = [] ∧
    diamondGraph.get_all_prerequisites_recursive "z" = [] ∧
    diamondGraph.find_weak_point_root_cause "z" ["A"] = none :=
  C10_unknown_id_graceful diamondGraph "z" ["A"] (by decide)

/-! ## The learning-path loop -/

theorem learningPathLoop_true (fid : String) :
    ∀ l : List KnowledgePoint, learningPathLoop fid l true = l := by
  intro l
  induction l with
  | nil => rfl
  | cons p t ih => simp [learningPathLoop, ih]

theorem learningPathLoop_false (fid : String) :
    ∀ l : List KnowledgePoint,
      learningPathLoop fid l false = l.dropWhile (fun p => decide (p.id ≠ fid)) := by
  intro l
  induction l with
  | nil => rfl
  | cons p t ih =>
    by_cases hp : p.id = fid
    · rw [List.dropWhile_cons_of_neg (by simp [hp])]
      simp [learningPathLoop, hp, learningPathLoop_true]
    · rw [List.dropWhile_cons_of_pos (by simp [hp])]
      simpa [learningPathLoop, hp] using ih

/-- C8 (amended): `get_learning_path` is the suffix of the closure of `to_id`
from the first occurrence of `from_id` (inclusive), with the point `to_id`
appended when it exists in the graph; when `from_id` does not occur in the
closure the path is `[to_id point]` if `to_id` exists and empty otherwise. -/
theorem C8_learning_path_spec (g : KnowledgeGraph) (from_id to_id : String) :
    g.get_learning_path from_id to_id =
      ((g.get_all_prerequisites_recursive to_id).dropWhile
          (fun p => decide (p.id ≠ from_id))) ++
        (match g.get_point to_id with
          | some target => [target]
          | none => []) ∧
    (from_id ∉ (g.get_all_prerequisites_recursive to_id).map KnowledgePoint.id →
      ∀ target, g.get_point to_id = some target →
        g.get_learning_path from_id to_id = [target]) ∧
    (from_id ∉ (g.get_all_prerequisites_recursive to_id).map KnowledgePoint.id →
      g.get_point to_id = none → g.get_learning_path from_id to_id = []) := by
  have hdrop : ∀ (l : List KnowledgePoint), from_id ∉ l.map KnowledgePoint.id →
      l.dropWhile (fun p => decide (p.id ≠ from_id)) = [] := by
    intro l hnm
    induction l with
    | nil => rfl
    | cons p t ih =>
      have hp : p.id ≠ from_id := by
        intro hcontra
        exact hnm (by simp [← hcontra])
      rw [List.dropWhile_cons_of_pos (by simp [hp])]
      exact ih (fun hm => hnm (by simp at hm ⊢; exact Or.inr hm))
  have hmain : g.get_learning_path from_id to_id =
      ((g.get_all_prerequisites_recursive to_id).dropWhile
          (fun p => decide (p.id ≠ from_id))) ++
        (match g.get_point to_id with
          | some target => [target]
          | none => []) := by
    unfold KnowledgeGraph.get_learning_path
    simp only [learningPathLoop_false]
    cases hpt : g.get_point to_id <;> simp [hpt]
  refine ⟨hmain, ?_, ?_⟩
  · intro hnm target hpt
    rw [hmain, hdrop _ hnm, hpt]
    rfl
  · intro hnm hpt
    rw [hmain, hdrop _ hnm, hpt]
    rfl

/-- Witness for C8: in the diamond graph, an id `z` absent from the closure
of `D` yields the one-point path `[D]`. -/
theorem C8_learning_path_spec_witness :
    diamondGraph.get_learning_path "z" "D" = [dPoint "D" ["B", "C"]] :=
  (C8_learning_path_spec diamondGraph "z" "D").2.1 (by decide) (dPoint "D" ["B", "C"])
    (by decide)

/-- Counterexample to C8 as literally stated: for `to_id` absent from the
graph and `from_id` absent from its (empty) closure, the returned path is
empty (length 0) — it does not contain the point `to_id`, because no point
with that id exists. -/
theorem C8_counterexample :
    (KnowledgeGraph.mk []).get_learning_path "a" "b" = [] ∧
    "a" ∉ ((KnowledgeGraph.mk []).get_all_prerequisites_recursive "b").map
      KnowledgePoint.id ∧
    ((KnowledgeGraph.mk []).get_learning_path "a" "b").length = 0 :=
  ⟨by decide, by decide, by decide⟩

/-! ## Diagnosis: grade-level estimation (`DiagnosisSystem._estimate_grade_level`) -/

/-- `round(x, 1)` of Python on the rationals produced here (all multiples of
one half, so the rounding is exact). -/
def round1 (x : ℚ) : ℚ := ((round (x * 10) : ℤ) : ℚ) / 10

/-- The walk of `_estimate_grade_level` over the sorted grades: a grade
without configured points is skipped; mastery ≥ 0.8 credits the full grade
and continues; 0.5 ≤ mastery < 0.8 credits `grade - 0.5` and continues; and
mastery < 0.5 breaks out of the loop. -/
def estimateLevelLoop (g : KnowledgeGraph) (mastered : List String) (subject : Subject) :
    List Nat → ℚ → ℚ
  | [], actual_level => actual_level
  | grade :: rest, actual_level =>
    let grade_points := g.get_points_by_grade_subject subject grade
    if grade_points.isEmpty then
      estimateLevelLoop g mastered subject rest actual_level
    else
      let mastery_rate : ℚ :=
        ((grade_points.filter (fun p => decide (p.id ∈ mastered))).length : ℚ) /
          (grade_points.length : ℚ)
      if mastery_rate ≥ 8 / 10 then
        estimateLevelLoop g mastered subject rest (grade : ℚ)
      else if mastery_rate ≥ 5 / 10 then
        estimateLevelLoop g mastered subject rest ((grade : ℚ) - 1 / 2)
      else actual_level

def _estimate_grade_level (g : KnowledgeGraph) (mastered_points : List String)
    (subject : Subject) (target_grade : Nat) : ℚ :=
  round1 (estimateLevelLoop g mastered_points subject
    ((List.range target_grade).map (· + 1)) 0)

/-- The per-grade mastery statistic: `none` when the grade has no configured
points (the grade is skipped), otherwise the pair (grade, mastery rate). -/
def gradeStat (g : KnowledgeGraph) (mastered : List String) (subject : Subject)
    (grade : Nat) : Option (Nat × ℚ) :=
  let pts := g.get_points_by_grade_subject subject grade
  if pts.isEmpty then none
  else some (grade,
    ((pts.filter (fun p => decide (p.id ∈ mastered))).length : ℚ) / (pts.length : ℚ))

/-- The per-grade mastery statistics (grade, mastery rate) for grades
`1..target_grade` that have configured points. -/
def gradeStatsList (g : KnowledgeGraph) (mastered : List String) (subject : Subject)
    (target_grade : Nat) : List (Nat × ℚ) :=
  ((List.range target_grade).map (· + 1)).filterMap (gradeStat g mastered subject)

/-- The walk exactly as claim C5 words it: the half-credit branch sets
`grade - 0.5` and STOPS the walk. -/
def walkClaimC5 : List (Nat × ℚ) → ℚ → ℚ
  | [], lvl => lvl
  | (grade, rate) :: rest, lvl =>
    if rate ≥ 8 / 10 then walkClaimC5 rest (grade : ℚ)
    else if rate ≥ 5 / 10 then (grade : ℚ) - 1 / 2
    else lvl

/-- The grade-level estimate computed by the algorithm exactly as claim C5
describes it (with the half-credit early stop). -/
def estimateGradeLevelClaimC5 (g : KnowledgeGraph) (mastered : List String)
    (subject : Subject) (target_grade : Nat) : ℚ :=
  round1 (walkClaimC5 (gradeStatsList g mastered subject target_grade) 0)

/-- The walk as the code actually behaves: the half-credit branch sets
`grade - 0.5` and CONTINUES to higher grades; only mastery < 0.5 stops. -/
def walkAmendedC5 : List (Nat × ℚ) → ℚ → ℚ
  | [], lvl => lvl
  | (grade, rate) :: rest, lvl =>
    if rate ≥ 8 / 10 then walkAmendedC5 rest (grade : ℚ)
    else if rate ≥ 5 / 10 then walkAmendedC5 rest ((grade : ℚ) - 1 / 2)
    else lvl

/-- A three-point corpus on which the two walks disagree: grade 1 has two
points with one mastered (rate 0.5) and grade 2 has one mastered point
(rate 1). -/
def levelPoint (i : String) (grade : Nat) : KnowledgePoint :=
  ⟨i, Subject.math, grade, "数", i, 1, [], 3⟩

def levelGraph : KnowledgeGraph :=
  ⟨[levelPoint "g1a" 1, levelPoint "g1b" 1, levelPoint "g2a" 2]⟩

/-- Counterexample to C5 as stated: on `levelGraph` with mastered
`g1a, g2a`, the code continues past the half-credited grade 1 and returns
level 2, while the claimed algorithm stops at 0.5. -/
theorem C5_grade_level_counterexample :
    _estimate_grade_level levelGraph ["g1a", "g2a"] Subject.math 2 = 2 ∧
    estimateGradeLevelClaimC5 levelGraph ["g1a", "g2a"] Subject.math 2 = 1 / 2 ∧
    _estimate_grade_level levelGraph ["g1a", "g2a"] Subject.math 2 ≠
      estimateGradeLevelClaimC5 levelGraph ["g1a", "g2a"] Subject.math 2 := by
  have hrange : (List.range 2).map (· + 1) = [1, 2] := by decide
  have hp1 : levelGraph.get_points_by_grade_subject Subject.math 1 =
      [levelPoint "g1a" 1, levelPoint "g1b" 1] := by decide
  have hp2 : levelGraph.get_points_by_grade_subject Subject.math 2 =
      [levelPoint "g2a" 2] := by decide
  have hf1 : [levelPoint "g1a" 1, levelPoint "g1b" 1].filter
      (fun p => decide (p.id ∈ ["g1a", "g2a"])) = [levelPoint "g1a" 1] := by decide
  have hf2 : [levelPoint "g2a" 2].filter
      (fun p => decide (p.id ∈ ["g1a", "g2a"])) = [levelPoint "g2a" 2] := by decide
  have hcode : _estimate_grade_level levelGraph ["g1a", "g2a"] Subject.math 2 = 2 := by
    unfold _estimate_grade_level
    rw [hrange]
    simp only [estimateLevelLoop, hp1, hp2]
    rw [hf1, hf2]
    norm_num [round1, round_ofNat]
  have hclaim : estimateGradeLevelClaimC5 levelGraph ["g1a", "g2a"] Subject.math 2 = 1 / 2 := by
    unfold estimateGradeLevelClaimC5 gradeStatsList
    rw [hrange]
    simp only [List.filterMap_cons, List.filterMap_nil, gradeStat, hp1, hp2,
      List.isEmpty_cons, Bool.false_eq_true, if_false, walkClaimC5]
    rw [hf1, hf2]
    norm_num [round1, round_ofNat]
  refine ⟨hcode, hclaim, ?_⟩
  rw [hcode, hclaim]
  norm_num

/-! ## Student profiles and the daily recommender -/

/-- One record of `student_profile.data["knowledge_point_stats"]`. -/
structure KPStat where
  total : Nat
  mistakes : Nat
  accuracy_rate : ℚ
deriving DecidableEq, Repr

/-- The part of a student profile the diagnosis and recommendation code
reads: the name-keyed accuracy statistics. -/
structure StudentProfile where
  knowledge_point_stats : List (String × KPStat)
deriving DecidableEq, Repr

/-- `DiagnosisSystem._analyze_mastered_points`: a point is mastered when its
name-matched record has accuracy ≥ 80 and ≥ 3 attempts; the first graph point
with matching name and subject is taken (the loop breaks). -/
def _analyze_mastered_points (g : KnowledgeGraph) (student_profile : StudentProfile)
    (subject : Subject) : List String :=
  student_profile.knowledge_point_stats.foldl
    (fun mastered kv =>
      if kv.2.accuracy_rate ≥ (80 : ℚ) ∧ kv.2.total ≥ 3 then
        match g.points.find? (fun point =>
            decide (point.name = kv.1 ∧ point.subject = subject)) with
        | some point => mastered ++ [point.id]
        | none => mastered
      else mastered) []

/-- `DailyRecommender._get_weak_points`: records under the accuracy threshold
with at least 2 attempts, resolved to the first matching graph point of the
subject at or below the grade, sorted by accuracy ascending (stable sort). -/
def _get_weak_points (g : KnowledgeGraph) (student_profile : StudentProfile)
    (subject : Subject) (grade : Nat) (threshold : ℚ) : List (KnowledgePoint × ℚ) :=
  let weak_points := student_profile.knowledge_point_stats.foldl
    (fun weak kv =>
      if kv.2.accuracy_rate < threshold ∧ kv.2.total ≥ 2 then
        match g.points.find? (fun point =>
            decide (point.name = kv.1 ∧ point.subject = subject ∧ point.grade ≤ grade)) with
        | some point => weak ++ [(point, kv.2.accuracy_rate)]
        | none => weak
      else weak) []
  weak_points.mergeSort (fun a b => decide (a.2 ≤ b.2))

/-- The mastered-set derivation inside `DailyRecommender._find_root_causes`:
any record with accuracy ≥ 80 marks every graph point with that name as
mastered — no attempt minimum and no subject filter, and no break. -/
def recommenderMastered (g : KnowledgeGraph) (student_profile : StudentProfile) :
    List String :=
  student_profile.knowledge_point_stats.foldl
    (fun mastered kv =>
      if kv.2.accuracy_rate ≥ (80 : ℚ) then
        mastered ++
          (g.points.filter (fun point => decide (point.name = kv.1))).map KnowledgePoint.id
      else mastered) []

/-- `DailyRecommender._find_root_causes`: root cause of each of the first 5
weak points, deduplicated by id. -/
def _find_root_causes (g : KnowledgeGraph) (weak_points : List (KnowledgePoint × ℚ))
    (student_profile : StudentProfile) : List KnowledgePoint :=
  let mastered := recommenderMastered g student_profile
  (weak_points.take 5).foldl
    (fun root_causes wp =>
      match g.find_weak_point_root_cause wp.1.id mastered with
      | some root_cause =>
        if root_cause.id ∈ root_causes.map KnowledgePoint.id then root_causes
        else root_causes ++ [root_cause]
      | none => root_causes) []

/-- A knowledge-point entry of a recommendation-plan dictionary. -/
structure PlanKP where
  id : String
  name : String
  grade : Nat
  current_accuracy : Option ℚ
  questions_count : Nat
deriving DecidableEq, Repr

/-- A recommendation-plan dictionary (union of the fields the four plan
builders emit; fields a builder does not emit are `none`/`[]`/`false`). -/
structure Plan where
  plan_id : String
  name : String
  emoji : String
  description : String
  knowledge_points : List PlanKP
  knowledge_points_count : Option Nat
  total_questions : Nat
  estimated_time : Nat
  difficulty : String
  goal : String
  priority : String
  is_remedial : Bool
deriving DecidableEq, Repr

def _create_weakness_plan (weak_points : List (KnowledgePoint × ℚ)) : Plan :=
  let selected_points := (weak_points.take 3).map Prod.fst
  { plan_id := "weakness_breakthrough"
    name := "薄弱点突破"
    emoji := "🎯"
    description := "重点练习" ++ toString selected_points.length ++ "个薄弱知识点，每个5道题"
    knowledge_points := selected_points.map (fun p =>
      { id := p.id
        name := p.name
        grade := p.grade
        current_accuracy := (weak_points.find? (fun x => decide (x.1 = p))).map Prod.snd
        questions_count := 5 })
    knowledge_points_count := none
    total_questions := 15
    estimated_time := 20
    difficulty := "简单→中等"
    goal := "巩固薄弱环节，提高正确率"
    priority := "高"
    is_remedial := false }

def _create_comprehensive_plan (g : KnowledgeGraph) (student_profile : StudentProfile)
    (subject : Subject) (grade : Nat) : Plan :=
  let all_points := g.get_points_by_grade_subject subject grade
  { plan_id := "comprehensive_review"
    name := "全面复习"
    emoji := "📚"
    description := "覆盖" ++ toString grade ++ "年级主要知识点，全面巩固"
    knowledge_points := []
    knowledge_points_count := some (min all_points.length 10)
    total_questions := 20
    estimated_time := 30
    difficulty := "中等"
    goal := "全面复习，查漏补缺"
    priority := "中"
    is_remedial := false }

def _create_quick_practice_plan (g : KnowledgeGraph) (student_profile : StudentProfile)
    (subject : Subject) (grade : Nat) : Plan :=
  { plan_id := "quick_practice"
    name := "快速练习"
    emoji := "⚡"
    description := "10道精选题目，快速练手"
    knowledge_points := []
    knowledge_points_count := none
    total_questions := 10
    estimated_time := 10
    difficulty := "简单"
    goal := "保持手感，每日一练"
    priority := "低"
    is_remedial := false }

def _create_remedial_plan (root_causes : List KnowledgePoint)
    (student_profile : StudentProfile) : Option Plan :=
  match root_causes with
  | [] => none
  | root_cause :: _ =>
    some
      { plan_id := "remedial_study"
        name := "基础补习"
        emoji := "🔧"
        description := "回溯到" ++ toString root_cause.grade ++ "年级，补习「" ++
          root_cause.name ++ "」"
        knowledge_points := [
          { id := root_cause.id
            name := root_cause.name
            grade := root_cause.grade
            current_accuracy := none
            questions_count := 15 }]
        knowledge_points_count := none
        total_questions := 15
        estimated_time := 20
        difficulty := "简单"
        goal := "打牢基础，为后续学习做准备"
        priority := "高"
        is_remedial := true }

/-- `DailyRecommender.recommend_daily_practice`: weakness plan when weak
points exist, then always the comprehensive and quick plans, then the
remedial plan when root causes exist. -/
def recommend_daily_practice (g : KnowledgeGraph) (student_profile : StudentProfile)
    (subject : Subject) (grade : Nat) : List Plan :=
  let weak_points := _get_weak_points g student_profile subject grade 60
  let recs1 : List Plan :=
    if weak_points.isEmpty then [] else [_create_weakness_plan weak_points]
  let recs2 := recs1 ++ [_create_comprehensive_plan g student_profile subject grade]
  let recs3 := recs2 ++ [_create_quick_practice_plan g student_profile subject grade]
  let root_causes := _find_root_causes g weak_points student_profile
  if root_causes.isEmpty then recs3
  else
    recs3 ++
      (match _create_remedial_plan root_causes student_profile with
        | some plan => [plan]
        | none => [])

/-- C7: with at least one weak point and at least one root cause,
`recommend_daily_practice` returns exactly 4 plans; with no weak points (and
hence no root causes) it returns exactly the comprehensive-review plan
followed by the quick-practice plan. -/
theorem C7_plan_count (g : KnowledgeGraph) (student_profile : StudentProfile)
    (subject : Subject) (grade : Nat) :
    (_get_weak_points g student_profile subject grade 60 ≠ [] →
      _find_root_causes g (_get_weak_points g student_profile subject grade 60)
          student_profile ≠ [] →
      (recommend_daily_practice g student_profile subject grade).length = 4) ∧
    (_get_weak_points g student_profile subject grade 60 = [] →
      _find_root_causes g (_get_weak_points g student_profile subject grade 60)
          student_profile = [] →
      recommend_daily_practice g student_profile subject grade =
        [_create_comprehensive_plan g student_profile subject grade,
          _create_quick_practice_plan g student_profile subject grade]) := by
  constructor
  · intro hw hr
    have hwb : ¬ ((_get_weak_points g student_profile subject grade 60).isEmpty = true) :=
      fun h => hw (List.isEmpty_iff.1 h)
    have hrb : ¬ ((_find_root_causes g (_get_weak_points g student_profile subject grade 60)
        student_profile).isEmpty = true) :=
      fun h => hr (List.isEmpty_iff.1 h)
    simp only [recommend_daily_practice]
    rw [if_neg hwb, if_neg hrb]
    cases hrc : _find_root_causes g (_get_weak_points g student_profile subject grade 60)
        student_profile with
    | nil => exact absurd hrc hr
    | cons r rest =>
      simp [_create_remedial_plan]
  · intro hw _hr
    simp only [recommend_daily_practice, hw]
    simp [_find_root_causes]

/-- A tiny corpus and profile exercising the recommender: `b` (乘法) depends
on `a` (加法); the profile has one weak record for 乘法. -/
def recPoint (i nm : String) (prereqs : List String) : KnowledgePoint :=
  ⟨i, Subject.math, 3, "数与代数", nm, 2, prereqs, 3⟩

def recGraph : KnowledgeGraph :=
  ⟨[recPoint "a" "加法" [], recPoint "b" "乘法" ["a"]]⟩

def recProfile : StudentProfile :=
  ⟨[("乘法", ⟨2, 1, 50⟩)]⟩

/-- Witness for C7: on `recGraph`/`recProfile` there is one weak point and one
root cause, and exactly 4 plans come back. -/
theorem C7_plan_count_witness :
    (recommend_daily_practice recGraph recProfile Subject.math 3).length = 4 := by
  have hfind : recGraph.points.find? (fun point =>
      decide (point.name = "乘法" ∧ point.subject = Subject.math ∧ point.grade ≤ 3)) =
      some (recPoint "b" "乘法" ["a"]) := by decide
  have hwp : _get_weak_points recGraph recProfile Subject.math 3 60 =
      [(recPoint "b" "乘法" ["a"], 50)] := by
    unfold _get_weak_points
    simp only [recProfile, List.foldl_cons, List.foldl_nil]
    rw [if_pos (by norm_num)]
    rw [hfind]
    simp
  have hm : recommenderMastered recGraph recProfile = [] := by
    unfold recommenderMastered
    simp only [recProfile, List.foldl_cons, List.foldl_nil]
    rw [if_neg (by norm_num)]
  have hroot : recGraph.find_weak_point_root_cause "b"
      (recommenderMastered recGraph recProfile) = some (recPoint "a" "加法" []) := by
    rw [hm]
    decide
  have hrc : _find_root_causes recGraph [(recPoint "b" "乘法" ["a"], 50)] recProfile =
      [recPoint "a" "加法" []] := by
    unfold _find_root_causes
    simp only [List.take_succ_cons, List.take_nil, List.foldl_cons, List.foldl_nil,
      recPoint]
    rw [show KnowledgeGraph.find_weak_point_root_cause recGraph "b"
        (recommenderMastered recGraph recProfile) = some (recPoint "a" "加法" []) from hroot]
    simp [recPoint]
  exact (C7_plan_count recGraph recProfile Subject.math 3).1
    (by rw [hwp]; simp) (by rw [hwp, hrc]; simp)

/-! ## C9: the recommender's mastery classification -/

def c9Graph : KnowledgeGraph :=
  ⟨[recPoint "n1" "口算" []]⟩

def c9Profile : StudentProfile :=
  ⟨[("口算", ⟨1, 0, 100⟩)]⟩

/-- Counterexample to C9 as stated: the recommender's root-cause search marks
`n1` as mastered although the profile's only record — for the matching name
口算 — has a single attempt (fewer than 3), while the diagnosis system's
classification does not count it. -/
theorem C9_mastery_counterexample :
    "n1" ∈ recommenderMastered c9Graph c9Profile ∧
    c9Profile.knowledge_point_stats = [("口算", KPStat.mk 1 0 100)] ∧
    (KPStat.mk 1 0 100).total < 3 ∧
    "n1" ∉ _analyze_mastered_points c9Graph c9Profile Subject.math := by
  have hm : recommenderMastered c9Graph c9Profile = ["n1"] := by
    unfold recommenderMastered
    simp only [c9Profile, List.foldl_cons, List.foldl_nil]
    rw [if_pos (by norm_num)]
    decide
  have ha : _analyze_mastered_points c9Graph c9Profile Subject.math = [] := by
    unfold _analyze_mastered_points
    simp only [c9Profile, List.foldl_cons, List.foldl_nil]
    rw [if_neg (by norm_num)]
  exact ⟨by rw [hm]; exact List.mem_cons_self _ _, rfl, by decide,
    by rw [ha]; exact List.not_mem_nil _⟩

/-- C9 (amended): the recommender's root-cause search classifies an id as
mastered iff some graph point with that id has a name whose profile record
has ≥ 80% accuracy — with no minimum-attempt requirement and no subject
filter (unlike the diagnosis system's classification). -/
theorem C9_recommender_mastered_amended (g : KnowledgeGraph)
    (student_profile : StudentProfile) (x : String) :
    x ∈ recommenderMastered g student_profile ↔
      ∃ point ∈ g.points, point.id = x ∧
        ∃ st : KPStat, (point.name, st) ∈ student_profile.knowledge_point_stats ∧
          st.accuracy_rate ≥ (80 : ℚ) := by
  have hfold : ∀ (l : List (String × KPStat)) (acc : List String),
      x ∈ l.foldl (fun mastered kv =>
        if kv.2.accuracy_rate ≥ (80 : ℚ) then
          mastered ++
            (g.points.filter (fun point => decide (point.name = kv.1))).map KnowledgePoint.id
        else mastered) acc ↔
      x ∈ acc ∨ ∃ kv ∈ l, kv.2.accuracy_rate ≥ (80 : ℚ) ∧
        ∃ point ∈ g.points, point.name = kv.1 ∧ point.id = x := by
    intro l
    induction l with
    | nil =>
      intro acc
      simp
    | cons kv rest ih =>
      intro acc
      rw [List.foldl_cons]
      by_cases hacc : kv.2.accuracy_rate ≥ (80 : ℚ)
      · rw [if_pos hacc, ih]
        constructor
        · rintro (hx | ⟨kv', hkv', hacc', point, hpt, hname, hid⟩)
          · rcases List.mem_append.1 hx with hx | hx
            · exact Or.inl hx
            · rcases List.mem_map.1 hx with ⟨point, hpt, hid⟩
              rcases List.mem_filter.1 hpt with ⟨hptg, hname⟩
              exact Or.inr ⟨kv, List.mem_cons_self _ _, hacc, point, hptg,
                by simpa using hname, hid⟩
          · exact Or.inr ⟨kv', List.mem_cons_of_mem _ hkv', hacc', point, hpt, hname, hid⟩
        · rintro (hx | ⟨kv', hkv', hacc', point, hpt, hname, hid⟩)
          · exact Or.inl (List.mem_append.2 (Or.inl hx))
          · rcases List.mem_cons.1 hkv' with hkv' | hkv'
            · subst hkv'
              refine Or.inl (List.mem_append.2 (Or.inr ?_))
              exact List.mem_map.2 ⟨point, List.mem_filter.2 ⟨hpt, by simpa using hname⟩, hid⟩
            · exact Or.inr ⟨kv', hkv', hacc', point, hpt, hname, hid⟩
      · rw [if_neg hacc, ih]
        constructor
        · rintro (hx | ⟨kv', hkv', hacc', point, hpt, hname, hid⟩)
          · exact Or.inl hx
          · exact Or.inr ⟨kv', List.mem_cons_of_mem _ hkv', hacc', point, hpt, hname, hid⟩
        · rintro (hx | ⟨kv', hkv', hacc', point, hpt, hname, hid⟩)
          · exact Or.inl hx
          · rcases List.mem_cons.1 hkv' with hkv' | hkv'
            · exact absurd (hkv' ▸ hacc') hacc
            · exact Or.inr ⟨kv', hkv', hacc', point, hpt, hname, hid⟩
  unfold recommenderMastered
  rw [hfold]
  simp only [List.not_mem_nil, false_or]
  constructor
  · rintro ⟨kv, hkv, hacc, point, hpt, hname, hid⟩
    exact ⟨point, hpt, hid, kv.2, by rw [hname]; exact hkv, hacc⟩
  · rintro ⟨point, hpt, hid, st, hmem, hacc⟩
    exact ⟨(point.name, st), hmem, hacc, point, hpt, rfl, hid⟩

/-- Witness for the amended C9: the theorem applied to the concrete graph and
profile gives membership of `n1` in the recommender's mastered set. -/
theorem C9_recommender_mastered_amended_witness :
    "n1" ∈ recommenderMastered c9Graph c9Profile :=
  (C9_recommender_mastered_amended c9Graph c9Profile "n1").2
    ⟨recPoint "n1" "口算" [], by decide, rfl, KPStat.mk 1 0 100,
      by exact List.mem_cons_self _ _, by norm_num⟩

/-- C5 (amended): `_estimate_grade_level` walks the per-grade mastery
statistics in ascending grade order; ≥ 0.8 credits the grade and continues,
0.5 ≤ rate < 0.8 credits `grade - 0.5` and also continues to higher grades,
and rate < 0.5 stops the walk without crediting that grade. -/
theorem estimateLevelLoop_eq_walk (g : KnowledgeGraph) (mastered : List String)
    (subject : Subject) :
    ∀ (l : List Nat) (lvl : ℚ),
      estimateLevelLoop g mastered subject l lvl =
        walkAmendedC5 (l.filterMap (gradeStat g mastered subject)) lvl := by
  intro l
  induction l with
  | nil =>
    intro lvl
    rfl
  | cons grade rest ih =>
    intro lvl
    rw [List.filterMap_cons]
    cases hst : gradeStat g mastered subject grade with
    | none =>
      have hemp : (g.get_points_by_grade_subject subject grade).isEmpty = true := by
        by_cases he : (g.get_points_by_grade_subject subject grade).isEmpty = true
        · exact he
        · simp [gradeStat, he] at hst
      simp only [estimateLevelLoop, hemp, if_true]
      exact ih lvl
    | some gr =>
      have hemp : ¬ ((g.get_points_by_grade_subject subject grade).isEmpty = true) := by
        intro he
        simp [gradeStat, he] at hst
      have h := hst
      simp only [gradeStat] at h
      rw [if_neg hemp] at h
      injection h with h
      subst h
      simp only [estimateLevelLoop, walkAmendedC5]
      rw [if_neg hemp]
      by_cases h8 : (((g.get_points_by_grade_subject subject grade).filter
            (fun p => decide (p.id ∈ mastered))).length : ℚ) /
          ((g.get_points_by_grade_subject subject grade).length : ℚ) ≥ 8 / 10
      · rw [if_pos h8, if_pos h8]
        exact ih _
      · rw [if_neg h8, if_neg h8]
        by_cases h5 : (((g.get_points_by_grade_subject subject grade).filter
              (fun p => decide (p.id ∈ mastered))).length : ℚ) /
            ((g.get_points_by_grade_subject subject grade).length : ℚ) ≥ 5 / 10
        · rw [if_pos h5, if_pos h5]
          exact ih _
        · rw [if_neg h5, if_neg h5]

/-- C5 (amended, proved): the estimate equals the amended walk over the
per-grade statistics. -/
theorem C5_grade_level_amended (g : KnowledgeGraph) (mastered : List String)
    (subject : Subject) (target_grade : Nat) :
    _estimate_grade_level g mastered subject target_grade =
      round1 (walkAmendedC5 (gradeStatsList g mastered subject target_grade) 0) := by
  unfold _estimate_grade_level gradeStatsList
  rw [estimateLevelLoop_eq_walk]

/-- Witness for the amended C5: the theorem applied to the concrete corpus. -/
theorem C5_grade_level_amended_witness :
    _estimate_grade_level levelGraph ["g1a", "g2a"] Subject.math 2 =
      round1 (walkAmendedC5 (gradeStatsList levelGraph ["g1a", "g2a"] Subject.math 2) 0) :=
  C5_grade_level_amended levelGraph ["g1a", "g2a"] Subject.math 2
